import Mathlib

/-!
Verification of the connection-engine core of libXPlane-ExtPlane-Client
(`src/libsrc/XPlaneExtPlaneClient/TCPClient.h`).

The repository ships the class declaration (with extensive doc comments) in
`TCPClient.h`; the method bodies of `processInput`, `processLine`, `mainLoop`,
`eventRead`, `eventWrite`, `sendData`, `addHost` and `dropConnection` live in a
`TCPClient.cpp` that is not part of the sources here, so those operations are
modelled from the specification's description of the engine.  `setDebug` is
defined inline in the header and is embedded directly from that source.

Buffers (C++ `std::string`) are modelled as `List Char`, `time_t` as `Int`,
ports as `Int`.  Protocol hooks (`processLine`, `initConnection`,
`dropConnection`, `eventTick`) are virtual extension points; their invocations
are modelled as explicit outputs of the engine's operations.
-/

set_option autoImplicit false

namespace XPlaneExtPlaneClient

/-- Modelled from the spec: leftmost occurrence search of the configured
delimiter string in the input buffer ("repeatedly search the input buffer for
the configured delimiter").  Returns the index of the leftmost position where
`d` occurs as a contiguous sublist of `buf`, or `none`. -/
def findDelim (d : List Char) : List Char → Option Nat
  | [] => if d = [] then some 0 else none
  | c :: rest =>
      if (c :: rest).take d.length = d then some 0
      else (findDelim d rest).map (· + 1)

/-- Modelled from the spec: one extraction pass over the input buffer
("repeatedly search the input buffer for the configured delimiter; for each
match, remove the matched line (delimiter excluded) from the front of the
buffer ... Stop when no further delimiter is found; the remainder stays
buffered").  Returns the list of complete lines in order together with the
residual buffer. -/
def extract (d : List Char) (buf : List Char) : List (List Char) × List Char :=
  if _hd : d = [] then ([], buf)
  else
    match h : findDelim d buf with
    | none => ([], buf)
    | some i =>
        let r := extract d (buf.drop (i + d.length))
        (buf.take i :: r.1, r.2)
termination_by buf.length
decreasing_by
  have key : ∀ (b : List Char) (j : Nat),
      findDelim d b = some j → j + d.length ≤ b.length := by
    intro b
    induction b with
    | nil =>
        intro j hj
        simp only [findDelim] at hj
        split at hj
        · rename_i hd0
          cases hj
          simp [hd0]
        · cases hj
    | cons c rest ih =>
        intro j hj
        simp only [findDelim] at hj
        split at hj
        · rename_i htake
          cases hj
          have hlen : d.length = min d.length (c :: rest).length := by
            conv_lhs => rw [← htake]
            simp
          simp only [Nat.zero_add]
          omega
        · rcases Option.map_eq_some'.mp hj with ⟨j', hj', rfl⟩
          have := ih j' hj'
          simp only [List.length_cons]
          omega
  have hb := key _ _ h
  have hdl : 0 < d.length := List.length_pos.mpr _hd
  simp only [List.length_drop]
  omega

/-- The concatenation `L1 ++ d ++ L2 ++ d ++ ... ++ Ln ++ d ++ leftover`. -/
def joinD (d : List Char) (lines : List (List Char)) (leftover : List Char) :
    List Char :=
  lines.foldr (fun L acc => L ++ d ++ acc) leftover

/-- The connection states, from the anonymous enum in `TCPClient.h`:
`CONN_DISCONNECTED, CONN_CONNECTING, CONN_CONNECTED`. -/
inductive ConnectState where
  | CONN_DISCONNECTED
  | CONN_CONNECTING
  | CONN_CONNECTED
deriving DecidableEq, Repr

/-- The engine state: the protected fields of class `TCPClient` in
`TCPClient.h`.  The target list holds `(host, port)` pairs per the spec's data
model; the socket handle is `some fd` while a socket is live and `none` once
closed ("no socket exists" in `DISCONNECTED`). -/
structure TCPClient where
  hostList : List (String × Int)
  hostNow : Nat
  host : String
  port : Int
  connectState : ConnectState
  clientSock : Option Nat
  wantWrite : Bool
  wantRead : Bool
  inputBuffer : List Char
  outputBuffer : List Char
  lastDataReceivedTime : Int
  connectTimeout : Int
  EOLString : List Char
  isRunning : Bool
  stopRequested : Bool
  debug : Int
deriving DecidableEq, Repr

/-- Hook invocations delivered to the protocol-specific collaborator
(`initConnection`, `dropConnection`, `processLine`, `eventTick`), modelled as
explicit outputs of the engine's operations. -/
inductive HookCall where
  | established (t : Int)
  | dropped (t : Int)
  | line (t : Int) (l : List Char)
  | tick (t : Int)
deriving DecidableEq, Repr

/-- Readiness/transport events observed by one loop iteration, modelled as an
explicit input: connect success (socket became writable while connecting),
connect failure, readable with the bytes the read returned, orderly remote
close (zero-length read), read error, writable with the number of bytes the
transport accepted, or nothing ready. -/
inductive NetEvent where
  | connWritable
  | connFailed
  | readable (bytes : List Char)
  | remoteClosed
  | readError
  | writable (accepted : Nat)
  | quiet
deriving DecidableEq, Repr

/-- Modelled from the spec: `processInput` "Looks for lines in inputBuffer,
and calls processLine() for each one found"; each complete line is removed
from the front of the buffer and dispatched with `(time, line)`, the remainder
stays buffered.  Returns the new state and the `processLine` calls made. -/
def processInput (t : Int) (s : TCPClient) : TCPClient × List (Int × List Char) :=
  let r := extract s.EOLString s.inputBuffer
  ({ s with inputBuffer := r.2 }, r.1.map (fun l => (t, l)))

/-- Modelled from the spec: `eventRead` "Reads the data and calls
processInput()" — append the received bytes to the input buffer, update
`lastDataReceivedTime`, then run line extraction. -/
def eventRead (t : Int) (bytes : List Char) (s : TCPClient) :
    TCPClient × List (Int × List Char) :=
  processInput t
    { s with inputBuffer := s.inputBuffer ++ bytes, lastDataReceivedTime := t }

/-- Modelled from the spec: `eventWrite` — "write as much of the output buffer
as the transport accepts; trim only the written prefix; if nothing remains,
stop requesting writability".  `accepted` is the number of bytes the transport
took; returns the new state and the bytes transmitted. -/
def eventWrite (accepted : Nat) (s : TCPClient) : TCPClient × List Char :=
  let sent := s.outputBuffer.take accepted
  let remaining := s.outputBuffer.drop accepted
  ({ s with outputBuffer := remaining, wantWrite := !remaining.isEmpty }, sent)

/-- Modelled from the spec: `sendData(data)` "appends `data + delimiter` to
the output buffer and marks writability interest"; no synchronous write, no
other state change. -/
def sendData (data : List Char) (s : TCPClient) : TCPClient :=
  { s with outputBuffer := s.outputBuffer ++ data ++ s.EOLString,
           wantWrite := true }

/-- Modelled from the spec: `addHost(host, port)` "appends to the target list.
No upper bound; duplicates permitted." -/
def addHost (h : String) (p : Int) (s : TCPClient) : TCPClient :=
  { s with hostList := s.hostList ++ [(h, p)] }

/-- Embedded from the source (`TCPClient.h`, inline body): `setDebug(int
_debug) { debug = _debug; }`. -/
def setDebug (n : Int) (s : TCPClient) : TCPClient :=
  { s with debug := n }

/-- Modelled from the spec: the connection-drop path — "close the socket,
transition to `DISCONNECTED`, invoke the connection-dropped hook with the
current time". -/
def dropConnection (t : Int) (s : TCPClient) : TCPClient × List HookCall :=
  ({ s with clientSock := none, connectState := .CONN_DISCONNECTED },
   [HookCall.dropped t])

/-- Modelled from the spec: beginning a connection attempt while
`DISCONNECTED` — "immediately attempt to open the next host in the target
list (round-robin), transition to `CONNECTING`, record attempt start time";
`hostNow` is "advanced (mod list length) each time a new connection attempt
begins".  An empty target list is an idle no-op. -/
def beginAttempt (now : Int) (s : TCPClient) : TCPClient :=
  if h : s.hostList = [] then s
  else
    let tgt := s.hostList.get
      ⟨s.hostNow % s.hostList.length, Nat.mod_lt _ (List.length_pos.mpr h)⟩
    { s with host := tgt.1, port := tgt.2,
             hostNow := (s.hostNow + 1) % s.hostList.length,
             connectState := .CONN_CONNECTING,
             clientSock := some 0,
             lastDataReceivedTime := now }

/-- Modelled from the spec: one iteration of `mainLoop`'s event handling.
The stop flag is polled first ("the loop closes any live socket, invokes the
connection-dropped hook if currently connected, and returns"); otherwise the
iteration acts per the state machine of the spec: `DISCONNECTED` begins the
next round-robin attempt; `CONNECTING` completes on writability, or closes the
socket on failure or after `connectTimeout`; `CONNECTED` first applies the
stale-connection check, then handles readable/writable/close/error events. -/
def loopStep (now : Int) (ev : NetEvent) (s : TCPClient) :
    TCPClient × List HookCall :=
  if s.stopRequested then
    ({ s with clientSock := none, connectState := .CONN_DISCONNECTED,
              isRunning := false },
     if s.connectState = .CONN_CONNECTED then [HookCall.dropped now] else [])
  else
    match s.connectState with
    | .CONN_DISCONNECTED => (beginAttempt now s, [])
    | .CONN_CONNECTING =>
        match ev with
        | .connWritable =>
            ({ s with connectState := .CONN_CONNECTED,
                      inputBuffer := [], outputBuffer := [],
                      wantRead := true, wantWrite := false,
                      lastDataReceivedTime := now },
             [HookCall.established now])
        | .connFailed =>
            ({ s with clientSock := none,
                      connectState := .CONN_DISCONNECTED }, [])
        | _ =>
            if now - s.lastDataReceivedTime > s.connectTimeout then
              ({ s with clientSock := none,
                        connectState := .CONN_DISCONNECTED }, [])
            else (s, [])
    | .CONN_CONNECTED =>
        if now - s.lastDataReceivedTime > s.connectTimeout then
          dropConnection now s
        else
          match ev with
          | .readable bytes =>
              if bytes = [] then dropConnection now s
              else
                let r := eventRead now bytes s
                (r.1, r.2.map (fun p => HookCall.line p.1 p.2))
          | .remoteClosed => dropConnection now s
          | .readError => dropConnection now s
          | .writable n => ((eventWrite n s).1, [])
          | _ => (s, [])

/-- One read event of `feedRun`: append the chunk, extract, accumulate the
`processLine` calls. -/
def feedStep (t : Int) (acc : TCPClient × List (Int × List Char))
    (chunk : List Char) : TCPClient × List (Int × List Char) :=
  let r := eventRead t chunk acc.1
  (r.1, acc.2 ++ r.2)

/-- Feeding a sequence of read events through the read-then-extract path,
accumulating every `processLine` call made along the way. -/
def feedRun (t : Int) (chunks : List (List Char)) (s : TCPClient) :
    TCPClient × List (Int × List Char) :=
  chunks.foldl (feedStep t) (s, [])

/-- The targets of the first `k` connection attempts when every attempt
fails: each attempt begins (recording `host`/`port`), then the failure drives
the engine back to `DISCONNECTED`. -/
def failedAttempts (now : Int) : Nat → TCPClient → List (String × Int)
  | 0, _ => []
  | k + 1, s =>
      let s1 := (loopStep now NetEvent.quiet s).1
      let s2 := (loopStep now NetEvent.connFailed s1).1
      (s1.host, s1.port) :: failedAttempts now k s2

/-- A concrete engine state used to instantiate the theorems below. -/
def sampleClient : TCPClient where
  hostList := [("alpha", 51000), ("bravo", 51001), ("charlie", 51002)]
  hostNow := 0
  host := ""
  port := 0
  connectState := .CONN_DISCONNECTED
  clientSock := none
  wantWrite := false
  wantRead := false
  inputBuffer := []
  outputBuffer := []
  lastDataReceivedTime := 0
  connectTimeout := 30
  EOLString := ['\n']
  isRunning := true
  stopRequested := false
  debug := 0

/-! ## Properties of delimiter search and extraction -/

theorem findDelim_nil {d : List Char} (hd : d ≠ []) : findDelim d [] = none := by
  simp [findDelim, hd]

/-- A found occurrence lies entirely inside the buffer. -/
theorem findDelim_bound {d : List Char} : ∀ {buf : List Char} {i : Nat},
    findDelim d buf = some i → i + d.length ≤ buf.length := by
  intro buf
  induction buf with
  | nil =>
      intro i h
      simp only [findDelim] at h
      split at h
      · rename_i hd
        cases h
        simp [hd]
      · cases h
  | cons c rest ih =>
      intro i h
      simp only [findDelim] at h
      split at h
      · rename_i htake
        cases h
        have hlen : d.length = min d.length (c :: rest).length := by
          conv_lhs => rw [← htake]
          simp
        simp only [Nat.zero_add]
        omega
      · rename_i htake
        rcases Option.map_eq_some'.mp h with ⟨j, hj, rfl⟩
        have := ih hj
        simp only [List.length_cons]
        omega

/-- Leftmost-occurrence search is stable under appending more bytes after an
occurrence has been found: the leftmost occurrence in `b1 ++ b2` is the
leftmost occurrence in `b1` whenever `b1` already contains one. -/
theorem findDelim_append {d b1 : List Char} {i : Nat} (b2 : List Char)
    (h : findDelim d b1 = some i) : findDelim d (b1 ++ b2) = some i := by
  induction b1 generalizing i with
  | nil =>
      simp only [findDelim] at h
      split at h
      · rename_i hd
        cases h
        subst hd
        cases b2 <;> simp [findDelim]
      · cases h
  | cons c rest ih =>
      simp only [findDelim] at h
      split at h
      · rename_i htake
        cases h
        have hlen : d.length ≤ (c :: rest).length := by
          have : d.length = min d.length (c :: rest).length := by
            conv_lhs => rw [← htake]
            simp
          omega
        have htake2 : List.take d.length (c :: (rest ++ b2)) = d := by
          rw [← List.cons_append, List.take_append_of_le_length hlen, htake]
        simp only [List.cons_append, findDelim, List.append_eq]
        rw [if_pos htake2]
      · rename_i htake
        rcases Option.map_eq_some'.mp h with ⟨j, hj, rfl⟩
        have hb := findDelim_bound hj
        have hlen : d.length ≤ (c :: rest).length := by
          simp only [List.length_cons]
          omega
        have htake2 : ¬ List.take d.length (c :: (rest ++ b2)) = d := by
          rw [← List.cons_append, List.take_append_of_le_length hlen]
          exact htake
        simp only [List.cons_append, findDelim, List.append_eq]
        rw [if_neg htake2, ih hj]
        rfl

/-- The delimiter is found at position 0 in any buffer it starts. -/
theorem findDelim_self_append {d : List Char} (hd : d ≠ []) (b : List Char) :
    findDelim d (d ++ b) = some 0 := by
  cases hdc : d with
  | nil => exact absurd hdc hd
  | cons c r =>
      have htake : List.take (c :: r).length ((c :: r) ++ b) = c :: r :=
        List.take_left (c :: r) b
      cases hb : (c :: r) ++ b with
      | nil => simp at hb
      | cons x xs =>
          rw [← hb]
          rw [hb, findDelim, ← hb, htake]
          simp

theorem extract_nil_delim (buf : List Char) : extract [] buf = ([], buf) := by
  rw [extract]
  simp

theorem extract_none {d buf : List Char} (hd : d ≠ [])
    (h : findDelim d buf = none) : extract d buf = ([], buf) := by
  rw [extract]
  simp only [dif_neg hd]
  split <;> simp_all

theorem extract_some {d buf : List Char} {i : Nat} (hd : d ≠ [])
    (h : findDelim d buf = some i) :
    extract d buf =
      ((buf.take i) :: (extract d (buf.drop (i + d.length))).1,
       (extract d (buf.drop (i + d.length))).2) := by
  rw [extract]
  simp only [dif_neg hd]
  split
  · simp_all
  · rename_i j hj
    rw [h] at hj
    cases hj
    rfl

theorem findDelim_extract_aux {d : List Char} (hd : d ≠ []) :
    ∀ (n : Nat) (buf : List Char), buf.length ≤ n →
      findDelim d (extract d buf).2 = none := by
  intro n
  induction n with
  | zero =>
      intro buf hlen
      have hb : buf = [] := List.eq_nil_of_length_eq_zero (Nat.le_zero.mp hlen)
      subst hb
      rw [extract_none hd (findDelim_nil hd)]
      exact findDelim_nil hd
  | succ n ih =>
      intro buf hlen
      cases h : findDelim d buf with
      | none =>
          rw [extract_none hd h]
          exact h
      | some i =>
          rw [extract_some hd h]
          apply ih
          have hb := findDelim_bound h
          have hdl : 0 < d.length := List.length_pos.mpr hd
          simp only [List.length_drop]
          omega

/-- After an extraction pass the residual buffer contains no occurrence of the
delimiter: the remainder is at most one partial line. -/
theorem findDelim_extract_residual {d : List Char} (hd : d ≠ [])
    (buf : List Char) : findDelim d (extract d buf).2 = none :=
  findDelim_extract_aux hd buf.length buf le_rfl

/-- Chunking composition: extracting from `b1 ++ b2` is the same as extracting
from `b1` and then extracting from the residual followed by `b2`.  This is the
heart of chunking-invariance of the read-then-extract path. -/
theorem extract_append {d : List Char} (hd : d ≠ []) (b1 b2 : List Char) :
    extract d (b1 ++ b2) =
      ((extract d b1).1 ++ (extract d ((extract d b1).2 ++ b2)).1,
       (extract d ((extract d b1).2 ++ b2)).2) := by
  suffices hs : ∀ (n : Nat) (u v : List Char), u.length ≤ n →
      extract d (u ++ v) =
        ((extract d u).1 ++ (extract d ((extract d u).2 ++ v)).1,
         (extract d ((extract d u).2 ++ v)).2) from
    hs b1.length b1 b2 le_rfl
  intro n
  induction n with
  | zero =>
      intro u v hlen
      have hu : u = [] := List.eq_nil_of_length_eq_zero (Nat.le_zero.mp hlen)
      subst hu
      rw [extract_none hd (findDelim_nil hd)]
      simp
  | succ n ih =>
      intro u v hlen
      cases h : findDelim d u with
      | none =>
          rw [extract_none hd h]
          simp
      | some i =>
          have hb := findDelim_bound h
          have hdl : 0 < d.length := List.length_pos.mpr hd
          have hfd2 : findDelim d (u ++ v) = some i := findDelim_append v h
          have hi : i ≤ u.length := by omega
          have hj : i + d.length ≤ u.length := hb
          rw [extract_some hd h, extract_some hd hfd2]
          rw [List.take_append_of_le_length hi,
              List.drop_append_of_le_length hj]
          have hlen' : (u.drop (i + d.length)).length ≤ n := by
            simp only [List.length_drop]
            omega
          rw [ih (u.drop (i + d.length)) v hlen']
          simp

/-- Canonical extraction: a buffer made of delimiter-terminated lines followed
by a delimiter-free remainder extracts to exactly those lines, in order, with
exactly that remainder left buffered. -/
theorem extract_joinD {d : List Char} (hd : d ≠ [])
    {lines : List (List Char)} {leftover : List Char}
    (hlines : ∀ L ∈ lines, findDelim d (L ++ d) = some L.length)
    (hleft : findDelim d leftover = none) :
    extract d (joinD d lines leftover) = (lines, leftover) := by
  induction lines with
  | nil =>
      exact extract_none hd hleft
  | cons L ls ih =>
      have hL : findDelim d (L ++ d) = some L.length :=
        hlines L (by simp)
      have hLd : extract d (L ++ d) = ([L], []) := by
        rw [extract_some hd hL]
        have ht : (L ++ d).take L.length = L := List.take_left L d
        have hdr : (L ++ d).drop (L.length + d.length) = [] := by
          have : (L ++ d).length = L.length + d.length := List.length_append L d
          rw [← this, List.drop_length]
        rw [ht, hdr, extract_none hd (findDelim_nil hd)]
      have hassoc : joinD d (L :: ls) leftover = (L ++ d) ++ joinD d ls leftover := by
        simp [joinD, List.append_assoc]
      rw [hassoc, extract_append hd (L ++ d) (joinD d ls leftover), hLd]
      simp only [List.nil_append]
      rw [ih (fun M hM => hlines M (by simp [hM]))]
      simp

/-- Folding read events from a drained buffer accumulates exactly the lines
of the concatenated bytes, and leaves the residual of the concatenation
buffered. -/
theorem feedStep_foldl_spec {d : List Char} (hd : d ≠ []) (t : Int) :
    ∀ (chunks : List (List Char)) (s : TCPClient) (ls : List (Int × List Char)),
      s.EOLString = d → findDelim d s.inputBuffer = none →
      (chunks.foldl (feedStep t) (s, ls)).1.inputBuffer
          = (extract d (s.inputBuffer ++ chunks.flatten)).2 ∧
      (chunks.foldl (feedStep t) (s, ls)).2
          = ls ++ (extract d (s.inputBuffer ++ chunks.flatten)).1.map
              (fun l => (t, l)) := by
  intro chunks
  induction chunks with
  | nil =>
      intro s ls heol hnone
      rw [List.foldl_nil, List.flatten_nil, List.append_nil,
          extract_none hd hnone]
      simp
  | cons c cs ih =>
      intro s ls heol hnone
      rw [List.foldl_cons]
      have hstep : feedStep t (s, ls) c =
          ({ s with inputBuffer := (extract d (s.inputBuffer ++ c)).2,
                    lastDataReceivedTime := t },
           ls ++ (extract d (s.inputBuffer ++ c)).1.map (fun l => (t, l))) := by
        simp [feedStep, eventRead, processInput, heol]
      rw [hstep]
      have hres : findDelim d (extract d (s.inputBuffer ++ c)).2 = none :=
        findDelim_extract_residual hd (s.inputBuffer ++ c)
      have hih := ih
        { s with inputBuffer := (extract d (s.inputBuffer ++ c)).2,
                 lastDataReceivedTime := t }
        (ls ++ (extract d (s.inputBuffer ++ c)).1.map (fun l => (t, l)))
        heol hres
      rcases hih with ⟨hbuf, hls⟩
      have hcomp := extract_append hd (s.inputBuffer ++ c) cs.flatten
      constructor
      · rw [hbuf]
        simp only
        rw [List.flatten_cons, ← List.append_assoc, hcomp]
      · rw [hls]
        simp only
        rw [List.flatten_cons, ← List.append_assoc, hcomp]
        simp [List.map_append, List.append_assoc]

/-- C1: for every sequence of byte chunks whose concatenation is
`L1 ++ d ++ ... ++ Ln ++ d ++ leftover` (each `Li` delimiter-free, `leftover`
delimiter-free), the read-then-extract path delivers to `processLine` exactly
`L1..Ln`, in order, and leaves the input buffer holding exactly `leftover` —
for every way of splitting the bytes across read calls. -/
theorem processInput_chunking_invariance
    (t : Int) (s : TCPClient) (chunks : List (List Char))
    (lines : List (List Char)) (leftover : List Char)
    (hd : s.EOLString ≠ [])
    (hbuf : s.inputBuffer = [])
    (hlines : ∀ L ∈ lines,
      findDelim s.EOLString (L ++ s.EOLString) = some L.length)
    (hleft : findDelim s.EOLString leftover = none)
    (hconcat : chunks.flatten = joinD s.EOLString lines leftover) :
    (feedRun t chunks s).1.inputBuffer = leftover ∧
    (feedRun t chunks s).2 = lines.map (fun l => (t, l)) := by
  have hnone : findDelim s.EOLString s.inputBuffer = none := by
    rw [hbuf]
    exact findDelim_nil hd
  have h := feedStep_foldl_spec hd t chunks s [] rfl hnone
  rw [hbuf, List.nil_append, hconcat, extract_joinD hd hlines hleft] at h
  rcases h with ⟨h1, h2⟩
  exact ⟨h1, by rw [feedRun, h2, List.nil_append]⟩

theorem processInput_chunking_invariance_witness :
    (feedRun 7 ["PONG 1\nPON".toList, "G 2\n".toList] sampleClient).1.inputBuffer
        = [] ∧
    (feedRun 7 ["PONG 1\nPON".toList, "G 2\n".toList] sampleClient).2
        = [(7, "PONG 1".toList), (7, "PONG 2".toList)] := by
  have h := processInput_chunking_invariance 7 sampleClient
    ["PONG 1\nPON".toList, "G 2\n".toList]
    ["PONG 1".toList, "PONG 2".toList] []
    (by decide) (by decide) (by decide) (by decide) (by decide)
  rcases h with ⟨h1, h2⟩
  exact ⟨h1, by rw [h2]; rfl⟩

/-- C7: an input buffer holding exactly two consecutive delimiters extracts
to exactly two `processLine` calls, each with the empty line; empty lines are
dispatched, never suppressed. -/
theorem processInput_empty_lines (t : Int) (s : TCPClient)
    (hd : s.EOLString ≠ [])
    (hbuf : s.inputBuffer = s.EOLString ++ s.EOLString) :
    (processInput t s).2 = [(t, []), (t, [])] ∧
    (processInput t s).1.inputBuffer = [] := by
  have hjoin : joinD s.EOLString [[], []] [] = s.EOLString ++ s.EOLString := by
    simp [joinD]
  have hlines : ∀ L ∈ ([[], []] : List (List Char)),
      findDelim s.EOLString (L ++ s.EOLString) = some L.length := by
    intro L hL
    have hL0 : L = [] := by
      simp only [List.mem_cons, List.not_mem_nil, or_false] at hL
      rcases hL with h | h <;> exact h
    subst hL0
    have := findDelim_self_append hd ([] : List Char)
    simpa using this
  have hx : extract s.EOLString s.inputBuffer = ([[], []], []) := by
    rw [hbuf, ← hjoin]
    exact extract_joinD hd hlines (findDelim_nil hd)
  constructor
  · simp [processInput, hx]
  · simp [processInput, hx]

theorem processInput_empty_lines_witness :
    (processInput 3 { sampleClient with inputBuffer := ['\n', '\n'] }).2
        = [(3, []), (3, [])] ∧
    (processInput 3 { sampleClient with inputBuffer := ['\n', '\n'] }).1.inputBuffer
        = [] :=
  processInput_empty_lines 3 { sampleClient with inputBuffer := ['\n', '\n'] }
    (by decide) (by decide)

/-- C8: extraction is idempotent on a drained buffer — after one extraction
pass, invoking extraction again with no new input makes zero `processLine`
calls and leaves the state unchanged. -/
theorem processInput_idempotent_drain (t u : Int) (s : TCPClient)
    (hd : s.EOLString ≠ []) :
    processInput u (processInput t s).1 = ((processInput t s).1, []) := by
  have hres : findDelim s.EOLString
      (extract s.EOLString s.inputBuffer).2 = none :=
    findDelim_extract_residual hd s.inputBuffer
  have hx : extract s.EOLString (extract s.EOLString s.inputBuffer).2
      = ([], (extract s.EOLString s.inputBuffer).2) :=
    extract_none hd hres
  cases s
  simp_all [processInput]

theorem processInput_idempotent_drain_witness :
    processInput 5
        ((processInput 4
          { sampleClient with inputBuffer := "AB\nCD".toList }).1)
      = ((processInput 4
          { sampleClient with inputBuffer := "AB\nCD".toList }).1, []) :=
  processInput_idempotent_drain 4 5
    { sampleClient with inputBuffer := "AB\nCD".toList } (by decide)

/-! ## Loop-iteration lemmas -/

theorem loopStep_disconnected (now : Int) (ev : NetEvent) (s : TCPClient)
    (hstop : s.stopRequested = false)
    (hc : s.connectState = ConnectState.CONN_DISCONNECTED) :
    loopStep now ev s = (beginAttempt now s, []) := by
  simp [loopStep, hstop, hc]

theorem beginAttempt_fields (now : Int) (s : TCPClient)
    (hne : s.hostList ≠ []) :
    (beginAttempt now s).host
        = (s.hostList.getD (s.hostNow % s.hostList.length) ("", 0)).1 ∧
    (beginAttempt now s).port
        = (s.hostList.getD (s.hostNow % s.hostList.length) ("", 0)).2 ∧
    (beginAttempt now s).hostNow = (s.hostNow + 1) % s.hostList.length ∧
    (beginAttempt now s).hostList = s.hostList ∧
    (beginAttempt now s).connectState = ConnectState.CONN_CONNECTING ∧
    (beginAttempt now s).stopRequested = s.stopRequested := by
  have hlen : s.hostNow % s.hostList.length < s.hostList.length :=
    Nat.mod_lt _ (List.length_pos.mpr hne)
  rw [beginAttempt, dif_neg hne]
  refine ⟨?_, ?_, rfl, rfl, rfl, rfl⟩
  · rw [List.getD_eq_getElem _ _ hlen]
    simp [List.get_eq_getElem]
  · rw [List.getD_eq_getElem _ _ hlen]
    simp [List.get_eq_getElem]

theorem loopStep_connecting_failed (now : Int) (s : TCPClient)
    (hstop : s.stopRequested = false)
    (hc : s.connectState = ConnectState.CONN_CONNECTING) :
    (loopStep now NetEvent.connFailed s).1.connectState
        = ConnectState.CONN_DISCONNECTED ∧
    (loopStep now NetEvent.connFailed s).1.hostList = s.hostList ∧
    (loopStep now NetEvent.connFailed s).1.hostNow = s.hostNow ∧
    (loopStep now NetEvent.connFailed s).1.stopRequested = s.stopRequested := by
  simp [loopStep, hstop, hc]

/-- C2: with every connection attempt failing, the attempted targets are the
host list traversed cyclically from the cursor, one attempt per failure, and
the cursor advances by one modulo the list length each time an attempt
begins. -/
theorem failover_round_robin (now : Int) (k : Nat) (s : TCPClient)
    (hstop : s.stopRequested = false)
    (hc : s.connectState = ConnectState.CONN_DISCONNECTED)
    (hne : s.hostList ≠ []) :
    failedAttempts now k s =
      (List.range k).map
        (fun i => s.hostList.getD ((s.hostNow + i) % s.hostList.length) ("", 0)) ∧
    (beginAttempt now s).hostNow = (s.hostNow + 1) % s.hostList.length := by
  suffices haux : ∀ (k : Nat) (s : TCPClient), s.stopRequested = false →
      s.connectState = ConnectState.CONN_DISCONNECTED → s.hostList ≠ [] →
      failedAttempts now k s =
        (List.range k).map
          (fun i => s.hostList.getD ((s.hostNow + i) % s.hostList.length) ("", 0))
    from ⟨haux k s hstop hc hne, (beginAttempt_fields now s hne).2.2.1⟩
  intro k
  induction k with
  | zero =>
      intro s _ _ _
      simp [failedAttempts]
  | succ k ih =>
      intro s hstop hc hne
      have h1 : (loopStep now NetEvent.quiet s).1 = beginAttempt now s := by
        rw [loopStep_disconnected now NetEvent.quiet s hstop hc]
      obtain ⟨hh, hp, hn, hl, hcs, hsr⟩ := beginAttempt_fields now s hne
      have hstop1 : (beginAttempt now s).stopRequested = false := by
        rw [hsr, hstop]
      obtain ⟨hc2, hl2, hn2, hsr2⟩ :=
        loopStep_connecting_failed now (beginAttempt now s) hstop1 hcs
      have hstop2 :
          (loopStep now NetEvent.connFailed (beginAttempt now s)).1.stopRequested
            = false := by
        rw [hsr2, hstop1]
      have hne2 :
          (loopStep now NetEvent.connFailed (beginAttempt now s)).1.hostList
            ≠ [] := by
        rw [hl2, hl]
        exact hne
      have hrec := ih _ hstop2 hc2 hne2
      have hhead :
          ((s.hostList.getD (s.hostNow % s.hostList.length) ("", 0)).1,
           (s.hostList.getD (s.hostNow % s.hostList.length) ("", 0)).2)
            = s.hostList.getD ((s.hostNow + 0) % s.hostList.length) ("", 0) := by
        simp
      have htail :
          List.map
            (fun i => s.hostList.getD
              (((s.hostNow + 1) % s.hostList.length + i) % s.hostList.length)
              ("", 0))
            (List.range k)
          = List.map
              ((fun i => s.hostList.getD ((s.hostNow + i) % s.hostList.length)
                  ("", 0)) ∘ Nat.succ)
              (List.range k) := by
        apply List.map_congr_left
        intro i _
        simp only [Function.comp_apply]
        rw [Nat.mod_add_mod]
        have harith : s.hostNow + 1 + i = s.hostNow + Nat.succ i := by omega
        rw [harith]
      simp only [failedAttempts]
      rw [h1, hrec, hl2, hl, hn2, hn, hh, hp, hhead, htail,
          List.range_succ_eq_map, List.map_cons, List.map_map]

theorem failover_round_robin_witness :
    failedAttempts 0 7 sampleClient =
      [("alpha", 51000), ("bravo", 51001), ("charlie", 51002),
       ("alpha", 51000), ("bravo", 51001), ("charlie", 51002),
       ("alpha", 51000)] ∧
    (beginAttempt 0 sampleClient).hostNow = 1 := by
  have h := failover_round_robin 0 7 sampleClient rfl rfl (by decide)
  rcases h with ⟨h1, h2⟩
  constructor
  · rw [h1]
    rfl
  · rw [h2]
    rfl

/-- C3: a loop iteration only ever moves the connection state along
`DISCONNECTED → CONNECTING`, `CONNECTING → CONNECTED`,
`CONNECTING → DISCONNECTED` or `CONNECTED → DISCONNECTED` (or leaves it
unchanged); in particular it never moves directly from `DISCONNECTED` to
`CONNECTED`. -/
theorem loopStep_transitions (now : Int) (ev : NetEvent) (s : TCPClient) :
    ((loopStep now ev s).1.connectState = s.connectState ∨
     (s.connectState = ConnectState.CONN_DISCONNECTED ∧
       (loopStep now ev s).1.connectState = ConnectState.CONN_CONNECTING) ∨
     (s.connectState = ConnectState.CONN_CONNECTING ∧
       (loopStep now ev s).1.connectState = ConnectState.CONN_CONNECTED) ∨
     (s.connectState = ConnectState.CONN_CONNECTING ∧
       (loopStep now ev s).1.connectState = ConnectState.CONN_DISCONNECTED) ∨
     (s.connectState = ConnectState.CONN_CONNECTED ∧
       (loopStep now ev s).1.connectState = ConnectState.CONN_DISCONNECTED)) ∧
    ¬ (s.connectState = ConnectState.CONN_DISCONNECTED ∧
       (loopStep now ev s).1.connectState = ConnectState.CONN_CONNECTED) := by
  by_cases hstop : s.stopRequested
  · cases hc : s.connectState <;>
      simp [loopStep, hstop, hc]
  · have hstop' : s.stopRequested = false := by
      simpa using hstop
    cases hc : s.connectState with
    | CONN_DISCONNECTED =>
        rw [loopStep_disconnected now ev s hstop' hc]
        by_cases hne : s.hostList = []
        · simp [beginAttempt, hne, hc]
        · obtain ⟨_, _, _, _, hcs, _⟩ := beginAttempt_fields now s hne
          simp [hcs, hc]
    | CONN_CONNECTING =>
        cases ev <;> simp [loopStep, hstop', hc] <;> split_ifs <;> simp_all
    | CONN_CONNECTED =>
        cases ev <;>
          simp [loopStep, hstop', hc, dropConnection, eventRead, processInput,
                eventWrite] <;>
          split_ifs <;> simp_all

/-- C4: when the transport accepts only a prefix of the output buffer,
exactly that prefix is transmitted and removed, the unwritten suffix remains
queued unchanged (writability interest kept while bytes remain), and
transmitted plus remaining bytes reassemble the original buffer — no byte is
lost and none is transmitted twice. -/
theorem eventWrite_backpressure (s : TCPClient) (n : Nat)
    (hn : n ≤ s.outputBuffer.length) :
    (eventWrite n s).2 = s.outputBuffer.take n ∧
    (eventWrite n s).1.outputBuffer = s.outputBuffer.drop n ∧
    (eventWrite n s).2 ++ (eventWrite n s).1.outputBuffer = s.outputBuffer ∧
    (eventWrite n s).1.wantWrite = !(s.outputBuffer.drop n).isEmpty ∧
    (eventWrite n s).1.inputBuffer = s.inputBuffer ∧
    (eventWrite n s).1.connectState = s.connectState ∧
    (eventWrite n s).1.hostList = s.hostList := by
  refine ⟨rfl, rfl, ?_, rfl, rfl, rfl, rfl⟩
  exact List.take_append_drop n s.outputBuffer

theorem eventWrite_backpressure_witness :
    (3 : Nat) ≤ ("HELLO\n".toList : List Char).length ∧
    (eventWrite 3 { sampleClient with outputBuffer := "HELLO\n".toList }).2
        = "HEL".toList ∧
    (eventWrite 3 { sampleClient with outputBuffer := "HELLO\n".toList }).1.outputBuffer
        = "LO\n".toList := by
  have h := eventWrite_backpressure
    { sampleClient with outputBuffer := "HELLO\n".toList } 3 (by decide)
  exact ⟨by decide, by rw [h.1]; rfl, by rw [h.2.1]; rfl⟩

/-- C5: a connected engine that has received no bytes for longer than
`connectTimeout` drops the connection on the next iteration — socket closed,
state `DISCONNECTED`, `dropConnection` hook fired — whatever the transport
event of that iteration is (in particular with no transport error and no
remote close). -/
theorem stale_connection_dropped (now : Int) (ev : NetEvent) (s : TCPClient)
    (hc : s.connectState = ConnectState.CONN_CONNECTED)
    (hstale : now - s.lastDataReceivedTime > s.connectTimeout)
    (hstop : s.stopRequested = false) :
    (loopStep now ev s).1.connectState = ConnectState.CONN_DISCONNECTED ∧
    (loopStep now ev s).1.clientSock = none ∧
    (loopStep now ev s).2 = [HookCall.dropped now] := by
  simp [loopStep, hc, hstop, dropConnection, if_pos hstale]

theorem stale_connection_dropped_witness :
    (loopStep 100 NetEvent.quiet
        { sampleClient with connectState := ConnectState.CONN_CONNECTED,
                            clientSock := some 5 }).1.connectState
      = ConnectState.CONN_DISCONNECTED ∧
    (loopStep 100 NetEvent.quiet
        { sampleClient with connectState := ConnectState.CONN_CONNECTED,
                            clientSock := some 5 }).1.clientSock = none ∧
    (loopStep 100 NetEvent.quiet
        { sampleClient with connectState := ConnectState.CONN_CONNECTED,
                            clientSock := some 5 }).2
      = [HookCall.dropped 100] :=
  stale_connection_dropped 100 NetEvent.quiet
    { sampleClient with connectState := ConnectState.CONN_CONNECTED,
                        clientSock := some 5 }
    rfl (by decide) rfl

/-- C6: `sendData(data)` appends exactly `data` followed by the configured
delimiter to the output buffer and marks writability interest; it performs no
write and changes nothing else of the engine state, in any connection
state. -/
theorem sendData_frame (data : List Char) (s : TCPClient) :
    (sendData data s).outputBuffer = s.outputBuffer ++ data ++ s.EOLString ∧
    (sendData data s).wantWrite = true ∧
    (sendData data s).hostList = s.hostList ∧
    (sendData data s).hostNow = s.hostNow ∧
    (sendData data s).host = s.host ∧
    (sendData data s).port = s.port ∧
    (sendData data s).connectState = s.connectState ∧
    (sendData data s).clientSock = s.clientSock ∧
    (sendData data s).wantRead = s.wantRead ∧
    (sendData data s).inputBuffer = s.inputBuffer ∧
    (sendData data s).lastDataReceivedTime = s.lastDataReceivedTime ∧
    (sendData data s).connectTimeout = s.connectTimeout ∧
    (sendData data s).EOLString = s.EOLString ∧
    (sendData data s).isRunning = s.isRunning ∧
    (sendData data s).stopRequested = s.stopRequested ∧
    (sendData data s).debug = s.debug :=
  ⟨rfl, rfl, rfl, rfl, rfl, rfl, rfl, rfl, rfl, rfl, rfl, rfl, rfl, rfl, rfl,
   rfl⟩

/-- C9: `addHost(host, port)` appends the pair to the end of the target list
(so the list grows by exactly one entry, existing entries untouched and in
order, duplicates permitted) and changes nothing else of the engine state. -/
theorem addHost_frame (h : String) (p : Int) (s : TCPClient) :
    (addHost h p s).hostList = s.hostList ++ [(h, p)] ∧
    (addHost h p s).hostList.length = s.hostList.length + 1 ∧
    (addHost h p s).hostNow = s.hostNow ∧
    (addHost h p s).host = s.host ∧
    (addHost h p s).port = s.port ∧
    (addHost h p s).connectState = s.connectState ∧
    (addHost h p s).clientSock = s.clientSock ∧
    (addHost h p s).wantWrite = s.wantWrite ∧
    (addHost h p s).wantRead = s.wantRead ∧
    (addHost h p s).inputBuffer = s.inputBuffer ∧
    (addHost h p s).outputBuffer = s.outputBuffer ∧
    (addHost h p s).lastDataReceivedTime = s.lastDataReceivedTime ∧
    (addHost h p s).connectTimeout = s.connectTimeout ∧
    (addHost h p s).EOLString = s.EOLString ∧
    (addHost h p s).isRunning = s.isRunning ∧
    (addHost h p s).stopRequested = s.stopRequested ∧
    (addHost h p s).debug = s.debug :=
  ⟨rfl, by simp [addHost], rfl, rfl, rfl, rfl, rfl, rfl, rfl, rfl, rfl, rfl,
   rfl, rfl, rfl, rfl, rfl⟩

/-- C10: `setDebug(n)` sets the debug level to `n` and leaves every other
field of the engine state unchanged. -/
theorem setDebug_frame (n : Int) (s : TCPClient) :
    (setDebug n s).debug = n ∧
    (setDebug n s).hostList = s.hostList ∧
    (setDebug n s).hostNow = s.hostNow ∧
    (setDebug n s).host = s.host ∧
    (setDebug n s).port = s.port ∧
    (setDebug n s).connectState = s.connectState ∧
    (setDebug n s).clientSock = s.clientSock ∧
    (setDebug n s).wantWrite = s.wantWrite ∧
    (setDebug n s).wantRead = s.wantRead ∧
    (setDebug n s).inputBuffer = s.inputBuffer ∧
    (setDebug n s).outputBuffer = s.outputBuffer ∧
    (setDebug n s).lastDataReceivedTime = s.lastDataReceivedTime ∧
    (setDebug n s).connectTimeout = s.connectTimeout ∧
    (setDebug n s).EOLString = s.EOLString ∧
    (setDebug n s).isRunning = s.isRunning ∧
    (setDebug n s).stopRequested = s.stopRequested :=
  ⟨rfl, rfl, rfl, rfl, rfl, rfl, rfl, rfl, rfl, rfl, rfl, rfl, rfl, rfl, rfl,
   rfl⟩

end XPlaneExtPlaneClient
